import Mathlib

/-!  Verification development for the wattmonk-chatbot ingestion and retrieval
pipeline (Backend/services/pdf_processor.py, embedding_service.py,
rag_service.py, pinecone_service.py, and gemini_rag_chatbot.py).

Strings are modelled as `List Char`.  Remote backends (the Gemini embedding
and generation APIs and the Pinecone upsert API) are modelled as explicit
oracle parameters; beside its result, each modelled operation returns a `Nat`
counting (or a log listing) the backend invocations it performed, so that
whether a backend was called is part of the observable behaviour.
Floating-point similarity scores are modelled as `Int`: every theorem below
depends only on comparisons of scores, never on float arithmetic.  -/

/-- Decidable equality for `Except`, used by the concrete evaluations. -/
instance {e a : Type} [DecidableEq e] [DecidableEq a] : DecidableEq (Except e a) := fun x y =>
  match x, y with
  | .ok v, .ok w =>
    if h : v = w then isTrue (congrArg Except.ok h)
    else isFalse (fun hc => h (Except.ok.inj hc))
  | .error v, .error w =>
    if h : v = w then isTrue (congrArg Except.error h)
    else isFalse (fun hc => h (Except.error.inj hc))
  | .ok _, .error _ => isFalse (fun hc => Except.noConfusion hc)
  | .error _, .ok _ => isFalse (fun hc => Except.noConfusion hc)

/-!  Text cleaner: `clean_text` in Backend/services/pdf_processor.py.  -/

/-- Characters matched by the Python regex class `\s` (as used on the ASCII
text this pipeline handles) and stripped by `str.strip()`. -/
def isPySpace (c : Char) : Bool :=
  c = ' ' || c = '\t' || c = '\n' || c = '\r' || c = '\x0b' || c = '\x0c'

/-- Replace every maximal run of characters satisfying `p` by the single
character `r`; the Boolean records whether the previous character was part of
a run.  `collapseRun p r` is `re.sub` of `p`-runs by `r`. -/
def collapseRunAux (p : Char → Bool) (r : Char) : Bool → List Char → List Char
  | _, [] => []
  | inRun, c :: cs =>
    if p c then
      if inRun then collapseRunAux p r true cs
      else r :: collapseRunAux p r true cs
    else c :: collapseRunAux p r false cs

/-- Model of `re.sub(pattern-run, r, text)` for a one-character class. -/
def collapseRun (p : Char → Bool) (r : Char) (l : List Char) : List Char :=
  collapseRunAux p r false l

/-- Characters kept by `re.sub(r'[^\x20-\x7E\n]', '', text)`. -/
def printable (c : Char) : Bool :=
  ('\x20' ≤ c && c ≤ '\x7e') || c = '\n'

/-- Python `str.strip()`: drop leading and trailing whitespace. -/
def stripList (l : List Char) : List Char :=
  ((l.dropWhile isPySpace).reverse.dropWhile isPySpace).reverse

/-- Model of `clean_text` (pdf_processor.py): collapse newline runs to a
single newline, then collapse whitespace runs to a single space (this second
substitution also turns every remaining newline into a space, since `\s`
matches `\n`), then drop non-printable characters, then strip. -/
def cleanText (l : List Char) : List Char :=
  stripList ((collapseRun isPySpace ' ' (collapseRun (fun c => c = '\n') '\n' l)).filter printable)

/-!  Chunker: `chunk_text` in Backend/services/pdf_processor.py.

The Python loop slides a window `text[start:start+chunk_size]`; when the raw
end lies strictly inside the text it searches the window backwards for the
last newline (`chunk.rfind('\n')`) and the last sentence break
(`chunk.rfind('. ')`), and shortens the window when the found offset exceeds
`chunk_size * 0.5`.  Since both offsets are integers and `chunk_size * 0.5`
is an exact binary float, the Python comparison `offset > chunk_size * 0.5`
holds exactly when `2 * offset > chunk_size`, which is how it is written
here.  Each emitted chunk stores `chunk.strip()`; we record the window as a
`(start, end)` pair and recover the stored string with `chunkStr`.  The loop
advances by `start = end - chunk_overlap` (Python int subtraction; in every
run covered by a theorem below `end ≥ overlap` holds, so truncated `Nat`
subtraction agrees with it).  The Python loop has no fuel: the fuel argument
of `chunkLoop` merely bounds the number of iterations, and `chunkText` grants
`length + 1` units, enough for every terminating run since each iteration
must raise `start` by at least one to terminate; a run that exhausts the fuel
(result `none`) corresponds to a non-progressing Python loop. -/

/-- Index of the last occurrence of `ch`, like Python `rfind` (with `none`
for the `-1` case). -/
def rfindChar (ch : Char) : List Char → Option Nat
  | [] => none
  | c :: cs =>
    match rfindChar ch cs with
    | some i => some (i + 1)
    | none => if c = ch then some 0 else none

/-- Index of the last occurrence of the two-character pattern `". "`, like
Python `chunk.rfind('. ')`. -/
def rfindDotSpace : List Char → Option Nat
  | [] => none
  | c :: cs =>
    match rfindDotSpace cs with
    | some i => some (i + 1)
    | none => if c = '.' && cs.head? = some ' ' then some 0 else none

/-- The Python test `found_offset > chunk_size * 0.5`, with `rfind`
returning `-1` (here `none`) never qualifying. -/
def qualifies (cs : Nat) : Option Nat → Bool
  | some k => cs < 2 * k
  | none => false

/-- The window `text[start:start+chunk_size]` inspected by one iteration. -/
def chunkWindow (t : List Char) (cs start : Nat) : List Char :=
  (t.drop start).take cs

/-- End position of the chunk emitted from `start`: the boundary-seeking
body of one iteration of the `chunk_text` loop. -/
def chunkEnd (t : List Char) (cs start : Nat) : Nat :=
  if start + cs < t.length then
    if qualifies cs (rfindChar '\n' (chunkWindow t cs start)) then
      start + (rfindChar '\n' (chunkWindow t cs start)).getD 0 + 1
    else if qualifies cs (rfindDotSpace (chunkWindow t cs start)) then
      start + (rfindDotSpace (chunkWindow t cs start)).getD 0 + 2
    else start + cs
  else start + cs

/-- The `while start < len(text)` loop of `chunk_text`, emitting the window
`(start, end)` of each iteration; `none` when the fuel is exhausted. -/
def chunkLoop (t : List Char) (cs ov : Nat) : Nat → Nat → Option (List (Nat × Nat))
  | 0, start => if start < t.length then none else some []
  | fuel + 1, start =>
    if start < t.length then
      (chunkLoop t cs ov fuel (chunkEnd t cs start - ov)).map
        (fun l => (start, chunkEnd t cs start) :: l)
    else some []

/-- Model of `chunk_text` (pdf_processor.py): clean the text, return a single
whole-text chunk when it fits in `chunk_size`, otherwise run the sliding
loop.  (The Python `chunk_size or settings.CHUNK_SIZE` defaulting happens
before this point; `cs` and `ov` are the operative values.) -/
def chunkText (raw : List Char) (cs ov : Nat) : Option (List (Nat × Nat)) :=
  if (cleanText raw).length ≤ cs then some [(0, (cleanText raw).length)]
  else chunkLoop (cleanText raw) cs ov ((cleanText raw).length + 1) 0

/-- Stored text of the chunk with window `(s, e)`: `text[s:e].strip()`. -/
def chunkStr (t : List Char) (s e : Nat) : List Char :=
  stripList ((t.drop s).take (e - s))

/-- Shape of a terminated `chunk_text` loop run started at `s`: each emitted
window starts where the loop stood, ends at `chunkEnd`, and the loop resumes
at `end - overlap`; an empty tail means the loop condition failed. -/
def goodRec (t : List Char) (cs ov : Nat) : Nat → List (Nat × Nat) → Prop
  | s, [] => t.length ≤ s
  | s, p :: rest =>
    s < t.length ∧ p.1 = s ∧ p.2 = chunkEnd t cs s ∧ goodRec t cs ov (p.2 - ov) rest

/-!  Embedding gateway: `create_embedding` and `create_embeddings_batch` in
Backend/services/embedding_service.py, and `RAGChatbot._get_embedding` in
gemini_rag_chatbot.py.  -/

/-- Outcome of one call of `genai.embed_content`: a vector, an exception
whose message contains "API key not valid", or any other exception. -/
inductive GemResult where
  | ok (v : List Int)
  | authErr
  | transient
deriving DecidableEq

/-- Errors raised by `create_embedding`: the distinct
"Invalid Google API key" `ValueError` versus the generic
"Error creating embedding" `ValueError`. -/
inductive EmbedErr where
  | invalidApiKey
  | other
deriving DecidableEq

/-- The body of `create_embedding` for one attempt: call the backend and map
exceptions to the two `ValueError` kinds. -/
def toAttempt : GemResult → Except EmbedErr (List Int)
  | .ok v => .ok v
  | .authErr => .error .invalidApiKey
  | .transient => .error .other

/-- Whether a backend call returned a vector. -/
def GemResult.isOk : GemResult → Bool
  | .ok _ => true
  | _ => false

/-- Model of `create_embedding` (embedding_service.py): the tenacity
decorator `retry(stop=stop_after_attempt(3), ...)` retries the decorated body
on every exception, so each of up to three attempts invokes the backend once;
after the third failure the last error surfaces.  The backend is an oracle
indexed by the attempt number; the returned `Nat` counts backend
invocations. -/
def createEmbedding (backend : List Char → Nat → GemResult) (text : List Char) :
    Except EmbedErr (List Int) × Nat :=
  match toAttempt (backend text 0) with
  | .ok v => (.ok v, 1)
  | .error _ =>
    match toAttempt (backend text 1) with
    | .ok v => (.ok v, 2)
    | .error _ => (toAttempt (backend text 2), 3)

/-- The zero vector placeholder `[0.0] * 768`. -/
def zeroVec : List Int := List.replicate 768 0

/-- Per-position semantics of `create_embeddings_batch`: the gathered
`create_embedding` task for position `i` (oracle `att1`, `none` when it
raised), then the one isolated retry (`att2`), then the zero-vector
placeholder of dimension 768. -/
def resolveEmbedding (att1 att2 : Nat → Option (List Int)) (i : Nat) : List Int :=
  match att1 i with
  | some v => v
  | none =>
    match att2 i with
    | some v => v
    | none => zeroVec

/-- One group of the batch loop: the `asyncio.gather` over the group followed
by the per-position exception check, appending one embedding per group
position in order. -/
def processGroup (att1 att2 : Nat → Option (List Int)) (off k : Nat) : List (List Int) :=
  (List.range k).map (fun j => resolveEmbedding att1 att2 (off + j))

/-- The `for i in range(0, len(texts), batch_size)` loop of
`create_embeddings_batch`.  `off` is the absolute index of the first text of
the current group.  (Python `range` with step `0` raises; the `bs = 0` case
is unreachable for the call sites and returns `[]` here.) -/
def batchLoopAux (att1 att2 : Nat → Option (List Int)) (bs : Nat) :
    Nat → List (List Char) → Nat → List (List Int)
  | 0, _, _ => []
  | _, [], _ => []
  | fuel + 1, c :: rest, off =>
    if bs = 0 then []
    else
      processGroup att1 att2 off ((c :: rest).take bs).length ++
        batchLoopAux att1 att2 bs fuel ((c :: rest).drop bs)
          (off + ((c :: rest).take bs).length)

/-- Model of `create_embeddings_batch` (embedding_service.py): the texts are
processed in groups of `bs`; each position's embedding is the outcome of its
gathered `create_embedding` call, else of one isolated retry call, else the
zero vector.  The oracles are indexed by the absolute position of the text,
which is all the backend interaction the code observes.  (The fuel argument
of `batchLoopAux` only makes the recursion structural: each group consumes at
least one text when `bs ≥ 1`, so `texts.length` units never run out.) -/
def createEmbeddingsBatch (att1 att2 : Nat → Option (List Int))
    (texts : List (List Char)) (bs : Nat) : List (List Int) :=
  batchLoopAux att1 att2 bs texts.length texts 0

/-- Model of `RAGChatbot._get_embedding` (gemini_rag_chatbot.py): blank input
short-circuits to the zero vector without a backend call; otherwise one
backend call whose failure also degrades to the zero vector.  The `Nat`
counts backend invocations. -/
def getEmbedding (backend : List Char → Except Unit (List Int)) (text : List Char) :
    List Int × Nat :=
  if stripList text = [] then (zeroVec, 0)
  else
    match backend text with
    | .ok v => (v, 1)
    | .error _ => (zeroVec, 1)

/-!  Retrieval-augmented generation: `format_context`, `generate_response`
and `process_query` in Backend/services/rag_service.py, and
`RAGChatbot.generate_response` in gemini_rag_chatbot.py.  -/

/-- A retrieved match as produced by `similarity_search`
(pinecone_service.py): all metadata fields are populated there, so the
`dict.get` defaults of `format_context` never fire.  The float `score` is
modelled as `Int` (only its ordering matters below). -/
structure RMatch where
  text : List Char
  source : List Char
  page : Nat
  score : Int
deriving DecidableEq

/-- Stable insertion of `a` into a descending-by-score list, after every
earlier element whose score is not smaller. -/
def insertDesc (a : RMatch) : List RMatch → List RMatch
  | [] => [a]
  | b :: bs => if b.score < a.score then a :: b :: bs else b :: insertDesc a bs

/-- Model of `sorted(context_chunks, key=lambda x: x.get("score", 0),
reverse=True)`: a stable descending sort by score. -/
def sortByScoreDesc (l : List RMatch) : List RMatch :=
  l.foldl (fun acc a => insertDesc a acc) []

/-- The block appended for the chunk of rank `i` (0-based) by the loop body
of `format_context`. -/
def contextBlock (i : Nat) (c : RMatch) : List Char :=
  "\n\nCONTEXT CHUNK ".toList ++ (Nat.repr (i + 1)).toList ++ " [Source: ".toList ++
    c.source ++ ", Page: ".toList ++ (Nat.repr c.page).toList ++ "]:\n".toList ++ c.text

/-- Model of `format_context` (rag_service.py): sort by descending score and
concatenate one labelled block per chunk — every chunk, with no truncation. -/
def formatContext (chunks : List RMatch) : List Char :=
  List.flatten ((sortByScoreDesc chunks).enum.map (fun p => contextBlock p.1 p.2))

/-- Text of the `generate_response` prompt before the interpolated context. -/
def promptHeader : List Char :=
  ("You are an AI assistant that answers questions based on the provided context.\n" ++
    "    \nCONTEXT:\n").toList

/-- Text of the `generate_response` prompt between context and query. -/
def promptMid : List Char := "\n\nUSER QUERY: ".toList

/-- Text of the `generate_response` prompt after the interpolated query. -/
def promptTail : List Char :=
  ("\n\nPlease answer the query based only on the provided context. " ++
    "If the context doesn\x27t contain relevant information to answer the query, \n" ++
    "state that you don\x27t have enough information to provide a complete answer. " ++
    "Do not make up information.\n" ++
    "Cite the sources (document name and page number) when providing information " ++
    "from the context.\n\nANSWER:").toList

/-- The prompt f-string of `generate_response` (rag_service.py). -/
def buildPrompt (query context : List Char) : List Char :=
  promptHeader ++ context ++ promptMid ++ query ++ promptTail

/-- Model of `generate_response` (rag_service.py): build the prompt over the
formatted context and call the generation backend under the same three-
attempt tenacity retry as `create_embedding`.  The `Nat` counts generation
backend invocations. -/
def generateResponse (gen : Nat → List Char → Except Unit (List Char))
    (query : List Char) (chunks : List RMatch) : Except Unit (List Char) × Nat :=
  match gen 0 (buildPrompt query (formatContext chunks)) with
  | .ok r => (.ok r, 1)
  | .error _ =>
    match gen 1 (buildPrompt query (formatContext chunks)) with
    | .ok r => (.ok r, 2)
    | .error _ => (gen 2 (buildPrompt query (formatContext chunks)), 3)

/-- Result shape of `process_query`. -/
structure QueryAnswer where
  response : List Char
  sources : List RMatch
deriving DecidableEq

/-- Model of `process_query` (rag_service.py).  The query-embedding and
`similarity_search` steps are abstracted into the `matches` parameter (the
retrieved match set); the claims below quantify over it.  `process_query`
passes the retrieved chunks straight to `generate_response` — with no check
for an empty match set — and returns the generated text together with the
full retrieved set as `sources`.  The `Nat` counts generation backend
invocations. -/
def processQuery (gen : Nat → List Char → Except Unit (List Char))
    (hits : List RMatch) (query : List Char) : Except Unit QueryAnswer × Nat :=
  match generateResponse gen query hits with
  | (.ok r, n) => (.ok ⟨r, hits⟩, n)
  | (.error e, n) => (.error e, n)

/-- A retrieved document of the standalone chatbot
(`RAGChatbot.retrieve_documents`). -/
structure CDoc where
  content : List Char
  sourceFile : List Char
deriving DecidableEq

/-- The canned answer of `RAGChatbot.generate_response` for an empty
retrieval. -/
def cannedNoInfo : List Char :=
  "I couldn\x27t find any relevant information to answer your question.".toList

/-- The context assembled by `RAGChatbot.generate_response` from the first
three retrieved documents. -/
def chatbotContext (docs : List CDoc) : List Char :=
  List.intercalate "\n\n".toList
    ((docs.take 3).enum.map (fun p =>
      "Document ".toList ++ (Nat.repr (p.1 + 1)).toList ++ " (Source: ".toList ++
        p.2.sourceFile ++ "): ".toList ++ p.2.content))

/-- Model of `RAGChatbot.generate_response` (gemini_rag_chatbot.py): an empty
retrieval returns the canned no-information answer without calling the LLM;
otherwise one LLM call over the prompt built from the first three documents,
with an error message on failure.  The `Nat` counts LLM invocations; the
prompt is abstracted to its context part, the only input-dependent piece the
claims mention. -/
def chatbotGenerateResponse (llm : List Char → Except Unit (List Char))
    (query : List Char) (docs : List CDoc) : List Char × Nat :=
  if docs.isEmpty then (cannedNoInfo, 0)
  else
    match llm (chatbotContext docs ++ query) with
    | .ok r => (stripList r, 1)
    | .error _ => ("There was an error generating a response.".toList, 1)

/-!  Vector store gateway: `store_embeddings` in
Backend/services/pinecone_service.py.  -/

/-- The slices `vectors[i:i+k]` taken by the upsert loop, fuelled. -/
def chunksOfAux {α : Type} (k : Nat) : Nat → List α → List (List α)
  | 0, _ => []
  | _, [] => []
  | fuel + 1, c :: rest =>
    if k = 0 then []
    else (c :: rest).take k :: chunksOfAux k fuel ((c :: rest).drop k)

/-- The batches `vectors[i:i+k]` in order.  (The fuel of `chunksOfAux` only
makes the recursion structural; `l.length` units never run out for
`k ≥ 1`.) -/
def chunksOf {α : Type} (k : Nat) (l : List α) : List (List α) :=
  chunksOfAux k l.length l

/-- One pass of the `for i in range(0, len(vectors), batch_size)` loop of
`store_embeddings`: upsert the batches in order, accumulating the
`upserted_count` sum, aborting at the first raised batch.  `call i` is the
outcome of `index.upsert` on batch `i`; the log lists the batch indices
actually sent. -/
def runBatches (call : Nat → Except Unit Nat) :
    List (List α) → Nat → Except Unit Nat × List Nat
  | [], _ => (.ok 0, [])
  | _ :: bs, i =>
    match call i with
    | .error e => (.error e, [i])
    | .ok c =>
      match runBatches call bs (i + 1) with
      | (.ok c2, log) => (.ok (c + c2), i :: log)
      | (.error e, log) => (.error e, i :: log)

/-- Model of `store_embeddings` (pinecone_service.py): the vector list is cut
into batches of 100, and the tenacity decorator retries the WHOLE function —
all batches from the first — on any failure, up to three attempts, after
which the last error surfaces.  The oracle is indexed by attempt and batch;
the log lists every `(attempt, batch)` upsert actually issued.  (The
construction of the id/values/metadata records from the chunks is a pure
reshaping and is abstracted into the opaque batch elements.) -/
def storeEmbeddings {V : Type} (oracle : Nat → Nat → Except Unit Nat) (vectors : List V) :
    Except Unit Nat × List (Nat × Nat) :=
  match runBatches (oracle 0) (chunksOf 100 vectors) 0 with
  | (.ok c, log) => (.ok c, log.map (fun i => (0, i)))
  | (.error _, log0) =>
    match runBatches (oracle 1) (chunksOf 100 vectors) 0 with
    | (.ok c, log) => (.ok c, log0.map (fun i => (0, i)) ++ log.map (fun i => (1, i)))
    | (.error _, log1) =>
      match runBatches (oracle 2) (chunksOf 100 vectors) 0 with
      | (r, log2) =>
        (r, log0.map (fun i => (0, i)) ++ log1.map (fun i => (1, i)) ++
          log2.map (fun i => (2, i)))

/-!  Concrete inputs used by counterexamples and witnesses.  -/

/-- A cleaned text on which the `chunk_text` loop stalls for
`chunk_size = 10`, `chunk_overlap = 8`: seven letters, a sentence break,
then ten letters. -/
def stallText : List Char := "aaaaaaa. aaaaaaaaaa".toList

/-- A raw text with a paragraph break (newline) at index 6, which is 60% of
`chunk_size = 10`. -/
def parBreakText : List Char := "abcdef\nghijklmnop".toList

/-- A 30-character cleaned text for the chunker witnesses. -/
def coverText : List Char := "abcdefghij. klmnopqrst. uvwxyz".toList

/-- A demonstration embedding vector. -/
def demoVec : List Int := [1, 2, 3]

/-- A backend that raises the invalid-API-key error on the first attempt and
succeeds on the second. -/
def authThenOk : List Char → Nat → GemResult :=
  fun _ k => if k = 0 then .authErr else .ok demoVec

/-- A backend that raises a transient error on the first attempt and succeeds
on the second. -/
def transThenOk : List Char → Nat → GemResult :=
  fun _ k => if k = 0 then .transient else .ok demoVec

/-- A backend that always returns `demoVec`. -/
def alwaysOk : List Char → Nat → GemResult := fun _ _ => .ok demoVec

/-- First-call outcomes for the batch-embedding demonstration: position 1
raises, the rest succeed. -/
def demoAtt1 : Nat → Option (List Int) :=
  fun i => if i = 1 then none else some [Int.ofNat i]

/-- Retry-call outcomes for the batch-embedding demonstration: every retry
raises again. -/
def demoAtt2 : Nat → Option (List Int) := fun _ => none

/-- Three texts for the batch-embedding demonstration. -/
def demoTexts : List (List Char) := ["a".toList, "b".toList, "c".toList]

/-- A generation backend that always answers `"X"`. -/
def genOk : Nat → List Char → Except Unit (List Char) := fun _ _ => .ok "X".toList

/-- Retrieved matches for the context-assembly demonstration: four matches,
given unordered; the lowest-scoring one is the only one containing `Z`. -/
def demoMatches : List RMatch :=
  [⟨"Zeta".toList, "s4".toList, 4, 1⟩,
   ⟨"alpha".toList, "s1".toList, 1, 9⟩,
   ⟨"gamma".toList, "s3".toList, 3, 5⟩,
   ⟨"beta".toList, "s2".toList, 2, 7⟩]

/-- 150 opaque vectors, yielding two upsert batches (100 and 50). -/
def demoVectors : List Unit := List.replicate 150 ()

/-- An upsert oracle failing only on batch 1 of attempt 0. -/
def demoOracle : Nat → Nat → Except Unit Nat :=
  fun a i =>
    if a = 0 ∧ i = 1 then .error ()
    else .ok (if i = 0 then 100 else 50)

/-- An upsert oracle that always succeeds. -/
def okOracle : Nat → Nat → Except Unit Nat := fun _ i => .ok (if i = 0 then 100 else 50)

/-!  Theorems.  First the text cleaner (claims C10 and C6).  -/

theorem collapseRunAux_mem (p : Char → Bool) (r : Char) :
    ∀ (b : Bool) (l : List Char) (c : Char), c ∈ collapseRunAux p r b l → c = r ∨ p c = false := by
  intro b l
  induction l generalizing b with
  | nil => intro c hc; simp [collapseRunAux] at hc
  | cons a as ih =>
    intro c hc
    by_cases hpa : p a
    · cases b with
      | true =>
        simp only [collapseRunAux, hpa] at hc
        simp at hc
        exact ih true c hc
      | false =>
        simp only [collapseRunAux, hpa] at hc
        simp at hc
        rcases hc with h | h
        · exact Or.inl h
        · exact ih true c h
    · have hpa2 : p a = false := by simpa using hpa
      simp only [collapseRunAux, hpa2] at hc
      simp at hc
      rcases hc with h | h
      · subst h; exact Or.inr hpa2
      · exact ih false c h

theorem mem_stripList {c : Char} {l : List Char} (h : c ∈ stripList l) : c ∈ l := by
  unfold stripList at h
  rw [List.mem_reverse] at h
  have h1 : c ∈ (l.dropWhile isPySpace).reverse := (List.dropWhile_sublist _).subset h
  rw [List.mem_reverse] at h1
  exact (List.dropWhile_sublist _).subset h1

theorem stripList_length_le (l : List Char) : (stripList l).length ≤ l.length := by
  unfold stripList
  rw [List.length_reverse]
  calc ((l.dropWhile isPySpace).reverse.dropWhile isPySpace).length
      ≤ (l.dropWhile isPySpace).reverse.length := (List.dropWhile_sublist _).length_le
    _ = (l.dropWhile isPySpace).length := List.length_reverse _
    _ ≤ l.length := (List.dropWhile_sublist _).length_le

theorem newline_not_mem_cleanText (l : List Char) : '\n' ∉ cleanText l := by
  intro h
  have h1 := mem_stripList h
  have h2 := (List.mem_filter.mp h1).1
  rcases collapseRunAux_mem isPySpace ' ' false _ '\n' h2 with h3 | h3
  · exact absurd h3 (by decide)
  · exact absurd h3 (by decide)

theorem rfindChar_eq_none {ch : Char} {l : List Char} (h : ch ∉ l) : rfindChar ch l = none := by
  induction l with
  | nil => rfl
  | cons c cs ih =>
    simp only [List.mem_cons, not_or] at h
    simp only [rfindChar]
    rw [ih h.2, if_neg (fun hh => h.1 hh.symm)]

theorem rfindChar_lt {ch : Char} {l : List Char} {i : Nat} (h : rfindChar ch l = some i) :
    i < l.length := by
  induction l generalizing i with
  | nil => exact absurd h (by simp [rfindChar])
  | cons c cs ih =>
    simp only [rfindChar] at h
    cases heq : rfindChar ch cs with
    | some j =>
      rw [heq] at h
      have hj := ih heq
      simp only [Option.some.injEq] at h
      simp only [List.length_cons]
      omega
    | none =>
      rw [heq] at h
      by_cases hc : c = ch
      · rw [if_pos hc] at h
        simp only [Option.some.injEq] at h
        simp only [List.length_cons]
        omega
      · rw [if_neg hc] at h
        exact absurd h (by simp)

theorem rfindDotSpace_lt {l : List Char} {i : Nat} (h : rfindDotSpace l = some i) :
    i + 1 < l.length := by
  induction l generalizing i with
  | nil => exact absurd h (by simp [rfindDotSpace])
  | cons c cs ih =>
    simp only [rfindDotSpace] at h
    cases heq : rfindDotSpace cs with
    | some j =>
      rw [heq] at h
      have hj := ih heq
      simp only [Option.some.injEq] at h
      simp only [List.length_cons]
      omega
    | none =>
      rw [heq] at h
      by_cases hc : (c = '.' && cs.head? = some ' ') = true
      · rw [if_pos hc] at h
        simp only [Option.some.injEq] at h
        simp only [Bool.and_eq_true, decide_eq_true_eq] at hc
        have hcs : cs ≠ [] := by
          intro hnil
          rw [hnil] at hc
          simp at hc
        have : 1 ≤ cs.length := List.length_pos.mpr hcs
        simp only [List.length_cons]
        omega
      · rw [if_neg hc] at h
        exact absurd h (by simp)

/-- Claim C10: `clean_text` output never contains a newline — the whitespace
substitution `\s+ → ' '` runs after the newline substitution and turns every
remaining newline into a space — so the paragraph-break search
`chunk.rfind('\n')` of `chunk_text`, which only ever inspects windows of
cleaned text, finds nothing in any window. -/
theorem clean_text_no_newline (l : List Char) :
    '\n' ∉ cleanText l ∧
      ∀ a b : Nat, rfindChar '\n' (((cleanText l).drop a).take b) = none := by
  refine ⟨newline_not_mem_cleanText l, fun a b => ?_⟩
  apply rfindChar_eq_none
  intro hmem
  exact newline_not_mem_cleanText l
    (((List.take_sublist _ _).trans (List.drop_sublist _ _)).subset hmem)

/-- Claim C6 (code bug): on a text whose paragraph break (newline) sits at
index 6 — 60% of `chunk_size = 10` — and strictly inside the text,
`clean_text` replaces the newline by a space, the paragraph-break search of
`chunk_text` then finds nothing in the first window, and the first chunk is
hard-cut at 10 characters, `(0, 10)`, instead of ending right after the
break as `(0, 7)`. -/
theorem clean_text_kills_paragraph_break :
    parBreakText[6]? = some '\n' ∧
    cleanText parBreakText = "abcdef ghijklmnop".toList ∧
    rfindChar '\n' (((cleanText parBreakText).drop 0).take 10) = none ∧
    chunkText parBreakText 10 2 = some [(0, 10), (8, 18), (16, 26)] := by decide

/-!  Chunker lemmas (claims C4 and C5).  -/

theorem window_length_le (t : List Char) (cs start : Nat) :
    (chunkWindow t cs start).length ≤ cs := by
  simp only [chunkWindow, List.length_take]
  exact Nat.min_le_left _ _

theorem chunkEnd_le (t : List Char) (cs start : Nat) : chunkEnd t cs start ≤ start + cs := by
  unfold chunkEnd
  split
  · split
    · rename_i hq
      cases hpb : rfindChar '\n' (chunkWindow t cs start) with
      | none => rw [hpb] at hq; simp [qualifies] at hq
      | some k =>
        have hk := rfindChar_lt hpb
        have hwl := window_length_le t cs start
        simp only [Option.getD_some]
        omega
    · split
      · rename_i hq
        cases hsb : rfindDotSpace (chunkWindow t cs start) with
        | none => rw [hsb] at hq; simp [qualifies] at hq
        | some k =>
          have hk := rfindDotSpace_lt hsb
          have hwl := window_length_le t cs start
          simp only [Option.getD_some]
          omega
      · exact Nat.le_refl _
  · exact Nat.le_refl _

theorem chunkEnd_ge (t : List Char) (cs ov start : Nat) (h1 : 1 ≤ cs) (h2 : 2 * ov ≤ cs) :
    start + ov + 1 ≤ chunkEnd t cs start := by
  unfold chunkEnd
  split
  · split
    · rename_i hq
      cases hpb : rfindChar '\n' (chunkWindow t cs start) with
      | none => rw [hpb] at hq; simp [qualifies] at hq
      | some k =>
        rw [hpb] at hq
        simp only [qualifies, decide_eq_true_eq] at hq
        simp only [Option.getD_some]
        omega
    · split
      · rename_i hq
        cases hsb : rfindDotSpace (chunkWindow t cs start) with
        | none => rw [hsb] at hq; simp [qualifies] at hq
        | some k =>
          rw [hsb] at hq
          simp only [qualifies, decide_eq_true_eq] at hq
          simp only [Option.getD_some]
          omega
      · omega
  · omega

theorem chunkLoop_sound (t : List Char) (cs ov : Nat) :
    ∀ (fuel s : Nat) (L : List (Nat × Nat)),
      chunkLoop t cs ov fuel s = some L → goodRec t cs ov s L := by
  intro fuel
  induction fuel with
  | zero =>
    intro s L h
    simp only [chunkLoop] at h
    split at h
    · exact absurd h (by simp)
    · rename_i hs
      simp only [Option.some.injEq] at h
      subst h
      simp only [goodRec]
      omega
  | succ f ih =>
    intro s L h
    simp only [chunkLoop] at h
    split at h
    · rename_i hs
      rw [Option.map_eq_some'] at h
      obtain ⟨L2, hL2, hcons⟩ := h
      subst hcons
      simp only [goodRec]
      exact ⟨hs, by simp, by simp, ih _ _ hL2⟩
    · rename_i hs
      simp only [Option.some.injEq] at h
      subst h
      simp only [goodRec]
      omega

theorem chunkLoop_isSome (t : List Char) (cs ov : Nat) (h1 : 1 ≤ cs) (h2 : 2 * ov ≤ cs) :
    ∀ (fuel s : Nat), t.length - s ≤ fuel → (chunkLoop t cs ov fuel s).isSome := by
  intro fuel
  induction fuel with
  | zero =>
    intro s hf
    have hs : ¬ s < t.length := by omega
    simp [chunkLoop, hs]
  | succ f ih =>
    intro s hf
    by_cases hs : s < t.length
    · have hend := chunkEnd_ge t cs ov s h1 h2
      have hnext : t.length - (chunkEnd t cs s - ov) ≤ f := by omega
      have hrec := ih (chunkEnd t cs s - ov) hnext
      obtain ⟨L, hL⟩ := Option.isSome_iff_exists.mp hrec
      simp only [chunkLoop, hs, if_true, hL, Option.map_some']
      rfl
    · simp [chunkLoop, hs]

theorem goodRec_sizes (t : List Char) (cs ov : Nat) :
    ∀ (s : Nat) (L : List (Nat × Nat)), goodRec t cs ov s L → ∀ p ∈ L, p.2 ≤ p.1 + cs := by
  intro s L
  induction L generalizing s with
  | nil => intro _ p hp; simp at hp
  | cons q rest ih =>
    intro hg p hp
    simp only [goodRec] at hg
    obtain ⟨hs, hq1, hq2, hrest⟩ := hg
    rcases List.mem_cons.mp hp with h | h
    · subst h
      rw [hq2, hq1]
      exact chunkEnd_le t cs s
    · exact ih _ hrest p h

theorem goodRec_cover (t : List Char) (cs ov : Nat) (h1 : 1 ≤ cs) (h2 : 2 * ov ≤ cs) :
    ∀ (s : Nat) (L : List (Nat × Nat)), goodRec t cs ov s L →
      ∀ i, s ≤ i → i < t.length → ∃ p ∈ L, p.1 ≤ i ∧ i < p.2 := by
  intro s L
  induction L generalizing s with
  | nil =>
    intro hg i hsi hil
    simp only [goodRec] at hg
    omega
  | cons q rest ih =>
    intro hg i hsi hil
    simp only [goodRec] at hg
    obtain ⟨hs, hq1, hq2, hrest⟩ := hg
    by_cases hie : i < q.2
    · exact ⟨q, List.mem_cons_self _ _, by omega, hie⟩
    · have hnext : q.2 - ov ≤ i := by omega
      obtain ⟨p, hp, hpi⟩ := ih _ hrest i hnext hil
      exact ⟨p, List.mem_cons_of_mem _ hp, hpi⟩

theorem goodRec_chain (t : List Char) (cs ov : Nat) (h1 : 1 ≤ cs) (h2 : 2 * ov ≤ cs) :
    ∀ (s : Nat) (L : List (Nat × Nat)), goodRec t cs ov s L →
      List.Chain' (fun p q => q.1 ≤ min p.2 t.length ∧ min p.2 t.length - q.1 ≤ ov) L := by
  intro s L
  induction L generalizing s with
  | nil => intro _; simp
  | cons q rest ih =>
    intro hg
    simp only [goodRec] at hg
    obtain ⟨hs, hq1, hq2, hrest⟩ := hg
    cases rest with
    | nil => simp
    | cons q2 rest2 =>
      have hrest2 := hrest
      simp only [goodRec] at hrest2
      obtain ⟨hs2, hq21, hq22, _⟩ := hrest2
      rw [List.chain'_cons]
      refine ⟨?_, ih _ hrest⟩
      have hqe : q.2 = chunkEnd t cs s := hq2
      have hprog := chunkEnd_ge t cs ov s h1 h2
      have hm1 : min q.2 t.length ≤ q.2 := Nat.min_le_left _ _
      have hm2 : min q.2 t.length ≤ t.length := Nat.min_le_right _ _
      constructor
      · refine Nat.le_min.mpr ⟨?_, ?_⟩ <;> omega
      · omega

/-- Claim C4 (amended): for every text whose cleaned form is longer than
`maxSize` and every configuration with `0 ≤ overlap < maxSize` AND
`2 * overlap ≤ maxSize` — without the strengthening the loop can stall, see
the counterexample — `chunk_text` terminates and the emitted chunks satisfy:
every stored chunk has at most `maxSize` characters, the windows cover every
character of the cleaned text with no gaps, and each pair of consecutive
windows shares between 0 and `overlap` characters of the text. -/
theorem chunk_text_window_props (raw : List Char) (cs ov : Nat)
    (hlen : cs < (cleanText raw).length) (hov : ov < cs) (hhalf : 2 * ov ≤ cs) :
    ∃ L, chunkText raw cs ov = some L ∧
      (∀ p ∈ L, (chunkStr (cleanText raw) p.1 p.2).length ≤ cs) ∧
      (∀ i < (cleanText raw).length, ∃ p ∈ L, p.1 ≤ i ∧ i < p.2) ∧
      List.Chain' (fun p q =>
        q.1 ≤ min p.2 (cleanText raw).length ∧
          min p.2 (cleanText raw).length - q.1 ≤ ov) L := by
  have h1 : 1 ≤ cs := by omega
  have hsome := chunkLoop_isSome (cleanText raw) cs ov h1 hhalf
    ((cleanText raw).length + 1) 0 (by omega)
  obtain ⟨L, hL⟩ := Option.isSome_iff_exists.mp hsome
  have hg := chunkLoop_sound (cleanText raw) cs ov _ _ _ hL
  refine ⟨L, ?_, ?_, ?_, ?_⟩
  · unfold chunkText
    rw [if_neg (by omega)]
    exact hL
  · intro p hp
    have hsz := goodRec_sizes (cleanText raw) cs ov 0 L hg p hp
    calc (chunkStr (cleanText raw) p.1 p.2).length
        ≤ (((cleanText raw).drop p.1).take (p.2 - p.1)).length := stripList_length_le _
      _ ≤ p.2 - p.1 := by
          simp only [List.length_take]
          exact Nat.min_le_left _ _
      _ ≤ cs := by omega
  · intro i hi
    exact goodRec_cover (cleanText raw) cs ov h1 hhalf 0 L hg i (Nat.zero_le _) hi
  · exact goodRec_chain (cleanText raw) cs ov h1 hhalf 0 L hg

/-- Witness for the amended C4 theorem on a concrete 30-character text with
`chunk_size = 10`, `overlap = 3`. -/
theorem chunk_text_window_props_app :
    ∃ L, chunkText coverText 10 3 = some L ∧
      (∀ p ∈ L, (chunkStr (cleanText coverText) p.1 p.2).length ≤ 10) ∧
      (∀ i < (cleanText coverText).length, ∃ p ∈ L, p.1 ≤ i ∧ i < p.2) ∧
      List.Chain' (fun p q =>
        q.1 ≤ min p.2 (cleanText coverText).length ∧
          min p.2 (cleanText coverText).length - q.1 ≤ 3) L :=
  chunk_text_window_props coverText 10 3 (by decide) (by decide) (by decide)

/-- Claim C4 (counterexample): the claim as stated quantifies over every
configuration with `0 ≤ overlap < maxSize`; at `maxSize = 10`,
`overlap = 8` and the 19-character cleaned text `stallText` the loop stops
advancing (see the progress counterexample) and `chunk_text` produces no
chunk list at all — the fuel `length + 1`, ample for every progressing run,
is exhausted. -/
theorem chunk_text_stall_cx :
    10 < stallText.length ∧ cleanText stallText = stallText ∧ 8 < 10 ∧
      chunkText stallText 10 8 = none := by decide

/-- The stall is genuine, not a fuel artefact: from window start 1 the
`chunk_text` loop on `stallText` returns to start 1, so no amount of fuel
yields a result. -/
theorem chunkLoop_stall (fuel : Nat) : chunkLoop stallText 10 8 fuel 1 = none := by
  induction fuel with
  | zero => rfl
  | succ f ih =>
    show (if 1 < stallText.length then
        (chunkLoop stallText 10 8 f (chunkEnd stallText 10 1 - 8)).map
          (fun l => (1, chunkEnd stallText 10 1) :: l)
      else some []) = none
    rw [if_pos (by decide)]
    have h9 : chunkEnd stallText 10 1 - 8 = 1 := by decide
    rw [h9, ih]
    rfl

/-- Claim C5 (counterexample): configuration validation does not constrain
the chunk settings at all, and `maxSize > overlap ≥ 0` alone does not give
forward progress: with `maxSize = 10 > overlap = 8` the loop on `stallText`
moves from window start 1 to `chunkEnd - overlap = 9 - 8 = 1` — no
progress, hence no termination. -/
theorem chunk_loop_no_progress_cx :
    8 < 10 ∧ 1 < stallText.length ∧ chunkEnd stallText 10 1 - 8 = 1 := by decide

/-- Claim C5 (amended): forward progress of the `chunk_text` loop needs the
stronger condition `2 * overlap ≤ maxSize` (boundary-seeking can pull the
window end back to just past half the window): under it every iteration
strictly advances the window start and `chunk_text` terminates on every
input. -/
theorem chunk_loop_progress_half_overlap (t : List Char) (cs ov : Nat)
    (h1 : 1 ≤ cs) (h2 : 2 * ov ≤ cs) :
    (∀ s, s < chunkEnd t cs s - ov) ∧ (chunkText t cs ov).isSome := by
  constructor
  · intro s
    have := chunkEnd_ge t cs ov s h1 h2
    omega
  · unfold chunkText
    split
    · simp
    · rename_i h
      exact chunkLoop_isSome (cleanText t) cs ov h1 h2 _ 0 (by omega)

/-- Witness for the amended C5 theorem at `chunk_size = 10`,
`overlap = 5`, on the text that stalls at `overlap = 8`. -/
theorem chunk_loop_progress_half_overlap_app :
    (∀ s, s < chunkEnd stallText 10 s - 5) ∧ (chunkText stallText 10 5).isSome :=
  chunk_loop_progress_half_overlap stallText 10 5 (by decide) (by decide)

/-!  Embedding gateway (claims C2, C3, C8).  -/

theorem batchLoopAux_eq (att1 att2 : Nat → Option (List Int)) (bs : Nat) (hbs : 1 ≤ bs) :
    ∀ (fuel : Nat) (ts : List (List Char)) (off : Nat), ts.length ≤ fuel →
      batchLoopAux att1 att2 bs fuel ts off =
        (List.range ts.length).map (fun j => resolveEmbedding att1 att2 (off + j)) := by
  intro fuel
  induction fuel with
  | zero =>
    intro ts off hf
    have hts : ts = [] := List.length_eq_zero.mp (by omega)
    subst hts
    rfl
  | succ f ih =>
    intro ts off hf
    cases ts with
    | nil => rfl
    | cons c rest =>
      have hbs0 : ¬ bs = 0 := by omega
      simp only [batchLoopAux]
      rw [if_neg hbs0]
      rw [ih ((c :: rest).drop bs) (off + ((c :: rest).take bs).length) (by
        simp only [List.length_drop, List.length_cons]
        simp only [List.length_cons] at hf
        omega)]
      have hsplit : (c :: rest).length =
          ((c :: rest).take bs).length + ((c :: rest).drop bs).length := by
        simp only [List.length_take, List.length_drop, List.length_cons]
        omega
      rw [hsplit, List.range_add, List.map_append, List.map_map]
      refine congrArg₂ (· ++ ·) rfl ?_
      apply List.map_congr_left
      intro j hj
      simp only [Function.comp_apply]
      congr 1
      omega

/-- Claim C2: for every input list of texts, every batch size `≥ 1` and
every pattern of backend success and failure, `create_embeddings_batch`
returns exactly one output per input in the same order: the `i`-th output is
the `i`-th gathered `create_embedding` outcome, else the outcome of its one
isolated retry, else the 768-dimension zero vector — no failure aborts the
batch or shifts the alignment. -/
theorem create_embeddings_batch_aligned (att1 att2 : Nat → Option (List Int))
    (texts : List (List Char)) (bs : Nat) (hbs : 1 ≤ bs) :
    (createEmbeddingsBatch att1 att2 texts bs).length = texts.length ∧
      (∀ i, i < texts.length →
        (createEmbeddingsBatch att1 att2 texts bs)[i]? =
          some (resolveEmbedding att1 att2 i)) ∧
      (∀ i, i < texts.length → att1 i = none → att2 i = none →
        (createEmbeddingsBatch att1 att2 texts bs)[i]? = some zeroVec) := by
  have he : createEmbeddingsBatch att1 att2 texts bs =
      (List.range texts.length).map (fun j => resolveEmbedding att1 att2 j) := by
    have h0 := batchLoopAux_eq att1 att2 bs hbs texts.length texts 0 (Nat.le_refl _)
    simpa [createEmbeddingsBatch] using h0
  have hget : ∀ i, i < texts.length →
      (createEmbeddingsBatch att1 att2 texts bs)[i]? =
        some (resolveEmbedding att1 att2 i) := by
    intro i hi
    rw [he, List.getElem?_map, List.getElem?_range hi]
    rfl
  refine ⟨?_, hget, ?_⟩
  · rw [he]
    simp
  · intro i hi h1 h2
    rw [hget i hi]
    simp [resolveEmbedding, h1, h2]

/-- Witness for the C2 theorem: three texts, batch size 2, the middle text
failing on both its gathered call and its retry. -/
theorem create_embeddings_batch_aligned_app :
    1 ≤ 2 ∧
      ((createEmbeddingsBatch demoAtt1 demoAtt2 demoTexts 2).length = demoTexts.length ∧
        (∀ i, i < demoTexts.length →
          (createEmbeddingsBatch demoAtt1 demoAtt2 demoTexts 2)[i]? =
            some (resolveEmbedding demoAtt1 demoAtt2 i)) ∧
        (∀ i, i < demoTexts.length → demoAtt1 i = none → demoAtt2 i = none →
          (createEmbeddingsBatch demoAtt1 demoAtt2 demoTexts 2)[i]? = some zeroVec)) :=
  ⟨by decide, create_embeddings_batch_aligned demoAtt1 demoAtt2 demoTexts 2 (by decide)⟩

/-- Claim C3 (counterexample): the pipeline's `create_embedding`
(embedding_service.py) has no blank-input guard: on the empty string, with an
always-succeeding backend, it still invokes the backend (one invocation, not
zero) and returns the backend's vector rather than the reserved zero
vector. -/
theorem create_embedding_blank_calls_backend :
    stripList "".toList = [] ∧
      createEmbedding alwaysOk "".toList = (.ok demoVec, 1) ∧
      demoVec ≠ zeroVec := by
  refine ⟨by decide, rfl, ?_⟩
  intro h
  have hlen : demoVec.length = zeroVec.length := by rw [h]
  have h3 : demoVec.length = 3 := rfl
  have h768 : zeroVec.length = 768 := List.length_replicate _ _
  omega

/-- Claim C3 (amended): the blank-input zero-vector guard lives in the
standalone chatbot's `_get_embedding` (gemini_rag_chatbot.py), not in the
pipeline's `create_embedding`: for every whitespace-only text,
`_get_embedding` returns the 768-dimension zero vector with zero backend
invocations. -/
theorem get_embedding_blank_zero (backend : List Char → Except Unit (List Int))
    (text : List Char) (h : stripList text = []) :
    getEmbedding backend text = (zeroVec, 0) := by
  unfold getEmbedding
  rw [if_pos h]

/-- Witness for the amended C3 theorem on a two-space text and a backend
that would fail if called. -/
theorem get_embedding_blank_zero_app :
    stripList "  ".toList = [] ∧
      getEmbedding (fun _ => .error ()) "  ".toList = (zeroVec, 0) :=
  ⟨by decide, get_embedding_blank_zero _ _ (by decide)⟩

/-- Claim C8 (counterexample): an authentication failure is retried like any
other exception — the tenacity decorator retries the whole body, including
the branch that raises the invalid-API-key `ValueError`: with a backend that
auth-fails on attempt 0 and succeeds on attempt 1, `create_embedding`
returns the second attempt's vector after two backend invocations instead of
surfacing the auth error immediately without retry. -/
theorem create_embedding_auth_retried :
    authThenOk "q".toList 0 = .authErr ∧
      createEmbedding authThenOk "q".toList = (.ok demoVec, 2) :=
  ⟨rfl, rfl⟩

/-- Claim C8 (amended): `create_embedding` maps an auth failure to an error
value distinct from the transient one, but retries it exactly like a
transient failure: after any failed first attempt a second backend call is
made, and only after three failed attempts is the third attempt's error —
the distinct invalid-API-key error when the third failure is an auth
failure — surfaced. -/
theorem create_embedding_retry_uniform (backend : List Char → Nat → GemResult)
    (text : List Char) (h0 : (backend text 0).isOk = false) :
    (∀ v, backend text 1 = .ok v → createEmbedding backend text = (.ok v, 2)) ∧
      ((backend text 1).isOk = false → (backend text 2).isOk = false →
        createEmbedding backend text = (toAttempt (backend text 2), 3)) ∧
      toAttempt GemResult.authErr ≠ toAttempt GemResult.transient := by
  have hfail : ∀ (g : GemResult), g.isOk = false → ∃ e, toAttempt g = .error e := by
    intro g hg
    cases g with
    | ok v => simp [GemResult.isOk] at hg
    | authErr => exact ⟨_, rfl⟩
    | transient => exact ⟨_, rfl⟩
  obtain ⟨e0, he0⟩ := hfail _ h0
  refine ⟨?_, ?_, by decide⟩
  · intro v h1
    unfold createEmbedding
    rw [he0, h1]
    rfl
  · intro h1 h2
    obtain ⟨e1, he1⟩ := hfail _ h1
    unfold createEmbedding
    rw [he0, he1]

/-- Witness for the amended C8 theorem: a transient failure on attempt 0 is
likewise retried and the second attempt's vector returned. -/
theorem create_embedding_retry_uniform_app :
    (transThenOk "q".toList 0).isOk = false ∧
      createEmbedding transThenOk "q".toList = (.ok demoVec, 2) := by
  have h := create_embedding_retry_uniform transThenOk "q".toList (by decide)
  exact ⟨by decide, h.1 demoVec (by decide)⟩

/-!  Retrieval-augmented generation (claims C1 and C7).  -/

/-- Claim C1 (counterexample): `process_query` has no empty-retrieval
short-circuit: with an empty match set and an always-succeeding generation
backend it invokes the generation backend (one invocation, not never) and
returns that backend's text — there is no canned answer in this path; only
the empty-`sources` part of the claim holds. -/
theorem process_query_empty_calls_generator :
    processQuery genOk [] "q".toList = (.ok ⟨"X".toList, []⟩, 1) := rfl

/-- Claim C1 (amended): on an empty retrieval `process_query` still invokes
the generation backend — the prompt simply carries an empty context section
and asks the model itself to declare insufficient information — and returns
the model's response together with an empty `sources` list; the canned
insufficient-information answer without any generation call exists only in
the standalone chatbot's `generate_response`. -/
theorem process_query_empty_matches_behavior
    (gen : Nat → List Char → Except Unit (List Char)) (query r : List Char)
    (h : gen 0 (buildPrompt query (formatContext [])) = .ok r) :
    processQuery gen [] query = (.ok ⟨r, []⟩, 1) ∧
      ∀ (llm : List Char → Except Unit (List Char)) (q : List Char),
        chatbotGenerateResponse llm q [] = (cannedNoInfo, 0) := by
  constructor
  · unfold processQuery generateResponse
    rw [h]
  · intro llm q
    rfl

/-- Witness for the amended C1 theorem with the always-"X" generation
backend. -/
theorem process_query_empty_matches_behavior_app :
    genOk 0 (buildPrompt "q".toList (formatContext [])) = .ok "X".toList ∧
      (processQuery genOk [] "q".toList = (.ok ⟨"X".toList, []⟩, 1) ∧
        ∀ (llm : List Char → Except Unit (List Char)) (q : List Char),
          chatbotGenerateResponse llm q [] = (cannedNoInfo, 0)) :=
  ⟨rfl, process_query_empty_matches_behavior genOk "q".toList "X".toList rfl⟩

theorem mem_insertDesc (x a : RMatch) (l : List RMatch) :
    x ∈ insertDesc a l ↔ x = a ∨ x ∈ l := by
  induction l with
  | nil => simp [insertDesc]
  | cons b bs ih =>
    unfold insertDesc
    split
    · simp [List.mem_cons]
    · simp only [List.mem_cons, ih]
      tauto

theorem mem_sortByScoreDesc_aux (x : RMatch) :
    ∀ (l acc : List RMatch), (x ∈ acc ∨ x ∈ l) →
      x ∈ l.foldl (fun acc a => insertDesc a acc) acc := by
  intro l
  induction l with
  | nil => intro acc h; simpa using h
  | cons a as ih =>
    intro acc h
    simp only [List.foldl_cons]
    apply ih
    rcases h with h | h
    · exact Or.inl ((mem_insertDesc x a acc).mpr (Or.inr h))
    · rcases List.mem_cons.mp h with h | h
      · exact Or.inl ((mem_insertDesc x a acc).mpr (Or.inl h))
      · exact Or.inr h

theorem mem_sortByScoreDesc (x : RMatch) (l : List RMatch) (h : x ∈ l) :
    x ∈ sortByScoreDesc l :=
  mem_sortByScoreDesc_aux x l [] (Or.inr h)

theorem text_within_blocks (c : RMatch) :
    ∀ (L : List RMatch) (i : Nat), c ∈ L →
      ∃ s t, List.flatten ((L.enumFrom i).map (fun p => contextBlock p.1 p.2)) =
        s ++ c.text ++ t := by
  intro L
  induction L with
  | nil => intro i h; simp at h
  | cons b bs ih =>
    intro i h
    have hstep : List.flatten (((b :: bs).enumFrom i).map (fun p => contextBlock p.1 p.2)) =
        contextBlock i b ++
          List.flatten ((bs.enumFrom (i + 1)).map (fun p => contextBlock p.1 p.2)) := by
      simp [List.enumFrom]
    rcases List.mem_cons.mp h with h | h
    · subst h
      refine ⟨"\n\nCONTEXT CHUNK ".toList ++ (Nat.repr (i + 1)).toList ++
          " [Source: ".toList ++ c.source ++ ", Page: ".toList ++
          (Nat.repr c.page).toList ++ "]:\n".toList,
        List.flatten ((bs.enumFrom (i + 1)).map (fun p => contextBlock p.1 p.2)), ?_⟩
      rw [hstep]
      simp [contextBlock, List.append_assoc]
    · obtain ⟨s, t, hst⟩ := ih (i + 1) h
      refine ⟨contextBlock i b ++ s, t, ?_⟩
      rw [hstep, hst]
      simp [List.append_assoc]

/-- Claim C7 (counterexample): with four retrieved matches the rendered
context contains the text of the fourth-highest-scoring match (`Z` occurs in
no other block), so the prompt is not limited to the three highest-scoring
matches. -/
theorem format_context_includes_fourth :
    3 < demoMatches.length ∧ 'Z' ∈ formatContext demoMatches := by decide

/-- Claim C7 (amended): `format_context` truncates nothing: every retrieved
match — not only the top three — contributes its text to the rendered
context (in descending-score order), and `process_query` returns the full
retrieved set as `sources`. -/
theorem format_context_includes_all (chunks : List RMatch) (c : RMatch) (h : c ∈ chunks) :
    c.text <:+: formatContext chunks ∧
      ∀ (gen : Nat → List Char → Except Unit (List Char)) (query : List Char)
        (a : QueryAnswer) (n : Nat),
        processQuery gen chunks query = (.ok a, n) → a.sources = chunks := by
  constructor
  · have hmem := mem_sortByScoreDesc c chunks h
    obtain ⟨s, t, hst⟩ := text_within_blocks c (sortByScoreDesc chunks) 0 hmem
    exact ⟨s, t, hst.symm⟩
  · intro gen query a n hpq
    unfold processQuery at hpq
    split at hpq
    · rename_i r m heq
      simp only [Prod.mk.injEq, Except.ok.injEq] at hpq
      obtain ⟨ha, -⟩ := hpq
      rw [← ha]
    · simp at hpq

/-- Witness for the amended C7 theorem at the lowest-scoring demo match. -/
theorem format_context_includes_all_app :
    (⟨"Zeta".toList, "s4".toList, 4, 1⟩ : RMatch) ∈ demoMatches ∧
      ((⟨"Zeta".toList, "s4".toList, 4, 1⟩ : RMatch).text <:+: formatContext demoMatches ∧
        ∀ (gen : Nat → List Char → Except Unit (List Char)) (query : List Char)
          (a : QueryAnswer) (n : Nat),
          processQuery gen demoMatches query = (.ok a, n) → a.sources = demoMatches) :=
  ⟨by decide, format_context_includes_all demoMatches _ (by decide)⟩

/-!  Vector store gateway (claim C9).  -/

theorem chunksOfAux_spec {α : Type} (k : Nat) (hk : 1 ≤ k) :
    ∀ (fuel : Nat) (l : List α), l.length ≤ fuel →
      (chunksOfAux k fuel l).flatten = l ∧ ∀ b ∈ chunksOfAux k fuel l, b.length ≤ k := by
  intro fuel
  induction fuel with
  | zero =>
    intro l hl
    have hnil : l = [] := List.length_eq_zero.mp (by omega)
    subst hnil
    exact ⟨rfl, by intro b hb; simp [chunksOfAux] at hb⟩
  | succ f ih =>
    intro l hl
    cases l with
    | nil => exact ⟨rfl, by intro b hb; simp [chunksOfAux] at hb⟩
    | cons c rest =>
      have hk0 : ¬ k = 0 := by omega
      simp only [chunksOfAux]
      rw [if_neg hk0]
      have hdrop : ((c :: rest).drop k).length ≤ f := by
        simp only [List.length_drop, List.length_cons]
        simp only [List.length_cons] at hl
        omega
      obtain ⟨hfl, hsz⟩ := ih ((c :: rest).drop k) hdrop
      constructor
      · simp only [List.flatten_cons, hfl, List.take_append_drop]
      · intro b hb
        rcases List.mem_cons.mp hb with h | h
        · subst h
          simp only [List.length_take]
          exact Nat.min_le_left _ _
        · exact hsz b h

theorem runBatches_ok {α : Type} (call : Nat → Except Unit Nat) :
    ∀ (bs : List (List α)) (i : Nat), (∀ j, j < bs.length → ∃ c, call (i + j) = .ok c) →
      ∃ c, runBatches call bs i = (.ok c, (List.range bs.length).map (fun j => i + j)) := by
  intro bs
  induction bs with
  | nil => intro i _; exact ⟨0, rfl⟩
  | cons b rest ih =>
    intro i h
    obtain ⟨c0, hc0⟩ := h 0 (by simp)
    rw [Nat.add_zero] at hc0
    have htail : ∀ j, j < rest.length → ∃ c, call (i + 1 + j) = .ok c := by
      intro j hj
      obtain ⟨c2, hc2⟩ := h (j + 1) (by simp only [List.length_cons]; omega)
      have e : i + (j + 1) = i + 1 + j := by omega
      rw [e] at hc2
      exact ⟨c2, hc2⟩
    obtain ⟨c1, hc1⟩ := ih (i + 1) htail
    refine ⟨c0 + c1, ?_⟩
    simp only [runBatches, hc0, hc1]
    simp only [List.length_cons]
    rw [List.range_succ_eq_map, List.map_cons, List.map_map]
    refine congrArg₂ Prod.mk rfl (congrArg₂ List.cons (by omega) ?_)
    apply List.map_congr_left
    intro j hj
    simp only [Function.comp_apply]
    omega

theorem runBatches_err {α : Type} (call : Nat → Except Unit Nat) :
    ∀ (bs : List (List α)) (i : Nat), (∃ j, j < bs.length ∧ call (i + j) = .error ()) →
      (runBatches call bs i).1 = .error () := by
  intro bs
  induction bs with
  | nil =>
    intro i h
    obtain ⟨j, hj, _⟩ := h
    simp at hj
  | cons b rest ih =>
    intro i h
    simp only [runBatches]
    cases hc : call i with
    | error e => rfl
    | ok c =>
      have htail : ∃ j, j < rest.length ∧ call (i + 1 + j) = .error () := by
        obtain ⟨j, hj, hcall⟩ := h
        cases j with
        | zero =>
          rw [Nat.add_zero] at hcall
          rw [hcall] at hc
          cases hc
        | succ j2 =>
          refine ⟨j2, by simp only [List.length_cons] at hj; omega, ?_⟩
          have e : i + (j2 + 1) = i + 1 + j2 := by omega
          rw [← e]
          exact hcall
      have hrec := ih (i + 1) htail
      cases hr : runBatches call rest (i + 1) with
      | mk r log =>
        rw [hr] at hrec
        cases r with
        | ok c2 => simp at hrec
        | error e2 => rfl

set_option maxRecDepth 8000

/-- Claim C9 (counterexample): with 150 vectors (two batches, of 100 and
50) and an upsert oracle failing only on batch 1 of the first attempt, the
tenacity retry re-runs the WHOLE call: batch 0, which already succeeded in
attempt 0, is upserted again in attempt 1 — the log shows batch 0 executed
twice — contradicting "batches that already succeeded ... are not
re-executed". -/
theorem store_embeddings_reexecutes_batches :
    (chunksOf 100 demoVectors).map List.length = [100, 50] ∧
      storeEmbeddings demoOracle demoVectors = (.ok 150, [(0, 0), (0, 1), (1, 0), (1, 1)]) ∧
      ((storeEmbeddings demoOracle demoVectors).2.filter (fun p => p.2 = 0)).length = 2 := by
  decide

/-- Claim C9 (amended): `store_embeddings` writes in batches of at most 100
that partition the vectors in order; the tenacity retry wraps the whole
call, so a clean first attempt upserts every batch exactly once, any batch
failure aborts the pass and the entire batch sequence is re-executed from
the first batch (up to three attempts, re-upserting previously successful
batches), and when every attempt hits a failing batch the storage error
surfaces for the whole call. -/
theorem store_embeddings_retry_semantics {V : Type}
    (oracle : Nat → Nat → Except Unit Nat) (vectors : List V) :
    ((chunksOf 100 vectors).flatten = vectors ∧
        ∀ b ∈ chunksOf 100 vectors, b.length ≤ 100) ∧
      ((∀ j, j < (chunksOf 100 vectors).length → ∃ c, oracle 0 j = .ok c) →
        ∃ c, storeEmbeddings oracle vectors =
          (.ok c, (List.range (chunksOf 100 vectors).length).map (fun j => (0, j)))) ∧
      ((∀ a, a < 3 → ∃ j, j < (chunksOf 100 vectors).length ∧ oracle a j = .error ()) →
        (storeEmbeddings oracle vectors).1 = .error ()) := by
  refine ⟨chunksOfAux_spec 100 (by omega) vectors.length vectors (Nat.le_refl _), ?_, ?_⟩
  · intro hok
    have hok2 : ∀ j, j < (chunksOf 100 vectors).length → ∃ c, oracle 0 (0 + j) = .ok c := by
      intro j hj
      simpa using hok j hj
    obtain ⟨c, hc⟩ := runBatches_ok (oracle 0) (chunksOf 100 vectors) 0 hok2
    refine ⟨c, ?_⟩
    unfold storeEmbeddings
    rw [hc]
    dsimp only
    simp only [List.map_map]
    refine congrArg₂ Prod.mk rfl ?_
    apply List.map_congr_left
    intro j hj
    simp
  · intro hfail
    have herr : ∀ a, a < 3 → (runBatches (oracle a) (chunksOf 100 vectors) 0).1 = .error () := by
      intro a ha
      apply runBatches_err
      obtain ⟨j, hj, hcall⟩ := hfail a ha
      exact ⟨j, hj, by simpa using hcall⟩
    cases h0 : runBatches (oracle 0) (chunksOf 100 vectors) 0 with
    | mk r0 log0 =>
      have h0e := herr 0 (by omega)
      rw [h0] at h0e
      cases r0 with
      | ok c => simp at h0e
      | error e0 =>
        cases h1 : runBatches (oracle 1) (chunksOf 100 vectors) 0 with
        | mk r1 log1 =>
          have h1e := herr 1 (by omega)
          rw [h1] at h1e
          cases r1 with
          | ok c => simp at h1e
          | error e1 =>
            cases h2 : runBatches (oracle 2) (chunksOf 100 vectors) 0 with
            | mk r2 log2 =>
              have h2e := herr 2 (by omega)
              rw [h2] at h2e
              cases r2 with
              | ok c => simp at h2e
              | error e2 =>
                unfold storeEmbeddings
                rw [h0, h1, h2]

/-- Witness for the amended C9 theorem: an always-succeeding oracle makes a
clean first attempt in which each of the two demo batches is upserted
exactly once. -/
theorem store_embeddings_retry_semantics_app :
    ((chunksOf 100 demoVectors).flatten = demoVectors ∧
        ∀ b ∈ chunksOf 100 demoVectors, b.length ≤ 100) ∧
      ∃ c, storeEmbeddings okOracle demoVectors =
        (.ok c, (List.range (chunksOf 100 demoVectors).length).map (fun j => (0, j))) := by
  have h := store_embeddings_retry_semantics okOracle demoVectors
  exact ⟨h.1, h.2.1 (fun j _ => ⟨_, rfl⟩)⟩
